import Mathlib

/-!
Verification of the `rbac` package (rbac.go): role chains, the permission
index built by `NewRbac`, and the `Authorizer` queries.

Modelling notes.
Go's `map[string]map[string]bool` values are modelled as total functions
`String → Finset String` that default to `∅` for a missing key.  The only
place where Go distinguishes a *present but empty* inner map from a missing
key is the key set of `roleToPermissionSet` (tested by `NewRbac`'s
duplicate-role check at line 64 and by `AddAsync`'s unknown-role check at
line 139); that key set is carried explicitly as the field `roleNames`
(`NewRbac` creates a `roleToPermissionSet` key exactly when it records a
flattened role name, so the two coincide).  For `permissionToRoleSet` the
lazily-inserted empty inner map (lines 69–71) is observationally equal to
the default `∅`, and for `chainToRoleIdSet` the two-step lookup of
`ChainHasRoleId` (lines 89–94) returns false in both the missing-key and
missing-id cases, so the default-`∅` function is faithful there as well.

The `sync.Map` fields of `Authorizer` are modelled as `Finset String`
(key sets; the stored values are always `true`).  `AddAsync`'s goroutine
body, once the resolver has returned, is the pure state transformation
`Authorizer.AddAsyncResult`; the `sync.WaitGroup` bookkeeping itself is
real concurrency and is not modelled.
-/

/-- A role that gives a list of permissions (rbac.go lines 10–15). -/
structure Role where
  Id : String
  Permissions : List String
deriving DecidableEq, Repr

/-- A chain of roles which extend each other's permissions
(rbac.go lines 18–22). -/
structure RoleChain where
  name : String
  roles : List Role
  permissions : List String
deriving DecidableEq, Repr

/-- `Chain` constructor (rbac.go lines 25–30). -/
def Chain (name : String) : RoleChain :=
  { name := name, roles := [], permissions := [] }

/-- `RoleChain.Add` (rbac.go lines 33–41): the new role's permission list is
the chain's cumulative list with the given list appended. -/
def RoleChain.Add (c : RoleChain) (id : String) (permissions : List String) :
    RoleChain :=
  let extendedPermissions := c.permissions ++ permissions
  { c with
      roles := c.roles ++ [{ Id := id, Permissions := extendedPermissions }]
      permissions := extendedPermissions }

/-- A chain built by `Chain name` followed by one `Add` per element of
`adds` (fluent usage of the builder API). -/
def buildChain (name : String) (adds : List (String × List String)) :
    RoleChain :=
  adds.foldl (fun c a => c.Add a.1 a.2) (Chain name)

/-- The access controller (rbac.go lines 44–48).  `roleNames` is the key set
of Go's `roleToPermissionSet` map (see the modelling notes). -/
structure Rbac where
  permissionToRoleSet : String → Finset String
  chainToRoleIdSet : String → Finset String
  roleToPermissionSet : String → Finset String
  roleNames : Finset String

def emptyRbac : Rbac :=
  { permissionToRoleSet := fun _ => ∅
    chainToRoleIdSet := fun _ => ∅
    roleToPermissionSet := fun _ => ∅
    roleNames := ∅ }

/-- The inner permission loop of `NewRbac` (rbac.go lines 68–77) for one
role with flattened name `roleName`. -/
def addPerms (roleName : String) (perms : List String) (st : Rbac) :
    Except String Rbac :=
  match perms with
  | [] => .ok st
  | permission :: rest =>
    if roleName ∈ st.permissionToRoleSet permission then
      .error ("duplicate permission " ++ permission ++ " in role " ++ roleName)
    else
      addPerms roleName rest
        { st with
            permissionToRoleSet :=
              Function.update st.permissionToRoleSet permission
                (insert roleName (st.permissionToRoleSet permission))
            roleToPermissionSet :=
              Function.update st.roleToPermissionSet roleName
                (insert permission (st.roleToPermissionSet roleName)) }

/-- One iteration of the role loop of `NewRbac` (rbac.go lines 61–77):
record the role id under the chain, reject a duplicate flattened name,
initialise the role's permission set and run the permission loop. -/
def addRole (chainName : String) (st : Rbac) (role : Role) :
    Except String Rbac :=
  let st1 := { st with
      chainToRoleIdSet :=
        Function.update st.chainToRoleIdSet chainName
          (insert role.Id (st.chainToRoleIdSet chainName)) }
  let roleName := chainName ++ "." ++ role.Id
  if roleName ∈ st1.roleNames then
    .error ("duplicate role " ++ roleName)
  else
    addPerms roleName role.Permissions
      { st1 with
          roleNames := insert roleName st1.roleNames
          roleToPermissionSet :=
            Function.update st1.roleToPermissionSet roleName ∅ }

/-- The role loop of `NewRbac` over one chain's role list. -/
def addRoles (chainName : String) (roles : List Role) (st : Rbac) :
    Except String Rbac :=
  match roles with
  | [] => .ok st
  | role :: rest =>
    match addRole chainName st role with
    | .error e => .error e
    | .ok st1 => addRoles chainName rest st1

/-- One iteration of the chain loop of `NewRbac` (rbac.go lines 59–78):
`chainToRoleIdSet[chain.name]` is reset to an empty set, then the chain's
roles are processed. -/
def addChain (st : Rbac) (chain : RoleChain) : Except String Rbac :=
  addRoles chain.name chain.roles
    { st with
        chainToRoleIdSet :=
          Function.update st.chainToRoleIdSet chain.name ∅ }

/-- The chain loop of `NewRbac`. -/
def addChains (chains : List RoleChain) (st : Rbac) : Except String Rbac :=
  match chains with
  | [] => .ok st
  | c :: rest =>
    match addChain st c with
    | .error e => .error e
    | .ok st1 => addChains rest st1

/-- `NewRbac` (rbac.go lines 52–85). -/
def NewRbac (roleChains : List RoleChain) : Except String Rbac :=
  if roleChains.isEmpty then .error "no role chains provided"
  else addChains roleChains emptyRbac

/-- `Rbac.ChainHasRoleId` (rbac.go lines 88–96).  Go checks key presence
first and id membership second; both failing lookups return false, which
coincides with membership in the defaulting function. -/
def Rbac.ChainHasRoleId (r : Rbac) (chain : String) (roleId : String) : Bool :=
  decide (roleId ∈ r.chainToRoleIdSet chain)

/-- The flattened role names of a list of chains, in processing order. -/
def flatNames (chains : List RoleChain) : List String :=
  chains.flatMap fun c => c.roles.map fun role => c.name ++ "." ++ role.Id

/-- The authorizer (rbac.go lines 99–108); `roles` and `errors` are the key
sets of the two `sync.Map`s. -/
structure Authorizer where
  rbac : Rbac
  roles : Finset String
  errors : Finset String

/-- `Authorizer.Add` (rbac.go lines 123–127): store each given role name. -/
def Authorizer.Add : Authorizer → List String → Authorizer
  | a, [] => a
  | a, role :: rest =>
    Authorizer.Add { a with roles := insert role a.roles } rest

/-- `Rbac.Authorizer` (rbac.go lines 111–120). -/
def Rbac.Authorizer (r : Rbac) (roles : List String) : Authorizer :=
  Authorizer.Add { rbac := r, roles := ∅, errors := ∅ } roles

/-- The unknown-role loop of `AddAsync` (rbac.go lines 138–142): every
returned role name missing from the index's `roleToPermissionSet` key set
is flagged with a "not allowed" error message. -/
def flagUnknown : Authorizer → List String → Authorizer
  | a, [] => a
  | a, role :: rest =>
    flagUnknown
      (if role ∈ a.rbac.roleNames then a
       else { a with
         errors := insert ("role " ++ role ++ " not allowed") a.errors }) rest

/-- The state transformation performed by the goroutine body of
`Authorizer.AddAsync` (rbac.go lines 132–144) once the resolver has
returned `(roles, err)`: a resolver error message is recorded, every
returned role name unknown to the index is flagged as not allowed, and
then every returned role name is added. -/
def Authorizer.AddAsyncResult (a : Authorizer) (roles : List String)
    (err : Option String) : Authorizer :=
  let a1 : Authorizer :=
    match err with
    | some e => { a with errors := insert e a.errors }
    | none => a
  (flagUnknown a1 roles).Add roles

/-- `Authorizer.Err` (rbac.go lines 148–159).  Go iterates the error map in
an unspecified order and joins with "; "; the model joins in sorted order
as one deterministic representative of that set. -/
def Authorizer.Err (a : Authorizer) : Option String :=
  if a.errors = ∅ then none
  else some (String.intercalate "; " (a.errors.sort (· ≤ ·)))

/-- `Authorizer.HasPermission` (rbac.go lines 162–171): some role granting
the permission is held. -/
def Authorizer.HasPermission (a : Authorizer) (permission : String) : Bool :=
  decide (∃ role ∈ a.rbac.permissionToRoleSet permission, role ∈ a.roles)

/-- `Authorizer.HasRole` (rbac.go lines 174–178). -/
def Authorizer.HasRole (a : Authorizer) (role : String) : Bool :=
  decide (role ∈ a.roles)

/-! ### Properties of the permission loop -/

theorem addPerms_isOk_iff (rn : String) :
    ∀ (perms : List String) (st : Rbac),
      (addPerms rn perms st).isOk = true ↔
        (perms.Nodup ∧ ∀ p ∈ perms, rn ∉ st.permissionToRoleSet p)
  | [], st => by simp [addPerms, Except.isOk, Except.toBool]
  | p :: rest, st => by
    by_cases h : rn ∈ st.permissionToRoleSet p
    · simp [addPerms, h, Except.isOk, Except.toBool]
    · simp only [addPerms]
      rw [if_neg h, addPerms_isOk_iff rn rest _]
      dsimp only
      simp only [List.nodup_cons, List.mem_cons, forall_eq_or_imp]
      constructor
      · rintro ⟨hnd, hall⟩
        have hp : p ∉ rest := by
          intro hmem
          have h2 := hall p hmem
          rw [Function.update_same] at h2
          exact h2 (Finset.mem_insert_self rn _)
        have hrest : ∀ q ∈ rest, rn ∉ st.permissionToRoleSet q := by
          intro q hq
          have h2 := hall q hq
          rwa [Function.update_noteq (fun hqp : q = p => hp (hqp ▸ hq))] at h2
        exact ⟨⟨hp, hnd⟩, h, hrest⟩
      · rintro ⟨⟨hp, hnd⟩, _, hrest⟩
        refine ⟨hnd, fun q hq => ?_⟩
        rw [Function.update_noteq (fun hqp : q = p => hp (hqp ▸ hq))]
        exact hrest q hq

theorem addPerms_ok_char (rn : String) :
    ∀ (perms : List String) (st st' : Rbac),
      addPerms rn perms st = .ok st' →
      st'.roleNames = st.roleNames ∧
      st'.chainToRoleIdSet = st.chainToRoleIdSet ∧
      (∀ x, x ∈ st'.roleToPermissionSet rn ↔
        x ∈ st.roleToPermissionSet rn ∨ x ∈ perms) ∧
      (∀ r, r ≠ rn → st'.roleToPermissionSet r = st.roleToPermissionSet r) ∧
      (∀ q r, r ∈ st'.permissionToRoleSet q ↔
        r ∈ st.permissionToRoleSet q ∨ (r = rn ∧ q ∈ perms))
  | [], st, st', h => by
    simp only [addPerms, Except.ok.injEq] at h
    subst h
    simp
  | p :: rest, st, st', h => by
    simp only [addPerms] at h
    by_cases hmem : rn ∈ st.permissionToRoleSet p
    · rw [if_pos hmem] at h; exact absurd h (by simp)
    · rw [if_neg hmem] at h
      obtain ⟨h1, h2, h3, h4, h5⟩ := addPerms_ok_char rn rest _ st' h
      dsimp only at h1 h2 h3 h4 h5
      refine ⟨h1, h2, ?_, ?_, ?_⟩
      · intro x
        rw [h3 x]
        simp only [Function.update_same, Finset.mem_insert, List.mem_cons]
        tauto
      · intro r hr
        rw [h4 r hr, Function.update_noteq hr]
      · intro q r
        rw [h5 q r]
        by_cases hqp : q = p
        · subst hqp
          simp only [Function.update_same, Finset.mem_insert, List.mem_cons]
          tauto
        · rw [Function.update_noteq hqp]
          simp only [List.mem_cons]
          tauto

/-! ### Properties of one role-loop iteration -/

/-- Construction invariant: every role name registered in
`permissionToRoleSet` has been recorded in `roleNames`. -/
def Wf (st : Rbac) : Prop :=
  ∀ p r, r ∈ st.permissionToRoleSet p → r ∈ st.roleNames

theorem emptyRbac_wf : Wf emptyRbac := by
  intro p r hr
  simp [emptyRbac] at hr

theorem addRole_isOk_iff (cn : String) (st : Rbac) (role : Role)
    (hwf : Wf st) :
    (addRole cn st role).isOk = true ↔
      ((cn ++ "." ++ role.Id) ∉ st.roleNames ∧ role.Permissions.Nodup) := by
  simp only [addRole]
  by_cases h : (cn ++ "." ++ role.Id) ∈ st.roleNames
  · rw [if_pos h]
    simp [h, Except.isOk, Except.toBool]
  · rw [if_neg h, addPerms_isOk_iff]
    dsimp only
    constructor
    · rintro ⟨hnd, _⟩
      exact ⟨h, hnd⟩
    · rintro ⟨_, hnd⟩
      refine ⟨hnd, fun p hp hmem => ?_⟩
      exact h (hwf p _ hmem)

theorem addRole_ok_char (cn : String) (st : Rbac) (role : Role) (st' : Rbac)
    (h : addRole cn st role = .ok st') :
    (cn ++ "." ++ role.Id) ∉ st.roleNames ∧
    role.Permissions.Nodup ∧
    st'.roleNames = insert (cn ++ "." ++ role.Id) st.roleNames ∧
    st'.roleToPermissionSet (cn ++ "." ++ role.Id) =
      role.Permissions.toFinset ∧
    (∀ r, r ≠ cn ++ "." ++ role.Id →
      st'.roleToPermissionSet r = st.roleToPermissionSet r) ∧
    (∀ q r, r ∈ st'.permissionToRoleSet q ↔
      r ∈ st.permissionToRoleSet q ∨
        (r = cn ++ "." ++ role.Id ∧ q ∈ role.Permissions)) ∧
    (∀ c, c ≠ cn → st'.chainToRoleIdSet c = st.chainToRoleIdSet c) ∧
    (∀ x, x ∈ st'.chainToRoleIdSet cn ↔
      x ∈ st.chainToRoleIdSet cn ∨ x = role.Id) := by
  simp only [addRole] at h
  by_cases hdup : (cn ++ "." ++ role.Id) ∈ st.roleNames
  · rw [if_pos hdup] at h
    exact absurd h (by simp)
  · rw [if_neg hdup] at h
    have hnd : role.Permissions.Nodup := by
      have hok := (addPerms_isOk_iff (cn ++ "." ++ role.Id)
        role.Permissions _).mp (by rw [h]; rfl)
      exact hok.1
    obtain ⟨h1, h2, h3, h4, h5⟩ :=
      addPerms_ok_char (cn ++ "." ++ role.Id) role.Permissions _ st' h
    dsimp only at h1 h2 h3 h4 h5
    refine ⟨hdup, hnd, h1, ?_, ?_, ?_, ?_, ?_⟩
    · refine Finset.ext fun x => ?_
      rw [h3 x, Function.update_same]
      simp
    · intro r hr
      rw [h4 r hr, Function.update_noteq hr]
    · intro q r
      exact h5 q r
    · intro c hc
      rw [h2, Function.update_noteq hc]
    · intro x
      rw [h2, Function.update_same]
      simp only [Finset.mem_insert]
      tauto

theorem addRole_wf (cn : String) (st : Rbac) (role : Role) (st' : Rbac)
    (hwf : Wf st) (h : addRole cn st role = .ok st') : Wf st' := by
  obtain ⟨-, -, hnames, -, -, hp2r, -, -⟩ := addRole_ok_char cn st role st' h
  intro q r hr
  rw [hnames, Finset.mem_insert]
  rcases (hp2r q r).mp hr with hold | ⟨heq, -⟩
  · exact Or.inr (hwf q r hold)
  · exact Or.inl heq

/-! ### Properties of the role loop over one chain's role list -/

/-- The flattened names contributed by a role list of a chain named `cn`. -/
def roleNamesOf (cn : String) (rs : List Role) : List String :=
  rs.map fun role => cn ++ "." ++ role.Id

theorem addRoles_ok_char (cn : String) :
    ∀ (rs : List Role) (st st' : Rbac), addRoles cn rs st = .ok st' →
      (∀ n ∈ roleNamesOf cn rs, n ∉ st.roleNames) ∧
      (roleNamesOf cn rs).Nodup ∧
      (∀ role ∈ rs, role.Permissions.Nodup) ∧
      st'.roleNames = st.roleNames ∪ (roleNamesOf cn rs).toFinset ∧
      (∀ role ∈ rs, st'.roleToPermissionSet (cn ++ "." ++ role.Id) =
        role.Permissions.toFinset) ∧
      (∀ r, r ∉ roleNamesOf cn rs →
        st'.roleToPermissionSet r = st.roleToPermissionSet r) ∧
      (∀ q r, r ∈ st'.permissionToRoleSet q ↔
        r ∈ st.permissionToRoleSet q ∨
          ∃ role ∈ rs, r = cn ++ "." ++ role.Id ∧ q ∈ role.Permissions) ∧
      (∀ c, c ≠ cn → st'.chainToRoleIdSet c = st.chainToRoleIdSet c) ∧
      (∀ x, x ∈ st'.chainToRoleIdSet cn ↔
        x ∈ st.chainToRoleIdSet cn ∨ ∃ role ∈ rs, x = role.Id)
  | [], st, st', h => by
    simp only [addRoles, Except.ok.injEq] at h
    subst h
    simp [roleNamesOf]
  | role :: rest, st, st', h => by
    simp only [addRoles] at h
    cases hhd : addRole cn st role with
    | error e => rw [hhd] at h; exact absurd h (by simp)
    | ok st1 =>
      rw [hhd] at h
      obtain ⟨hfresh, hnd, hnames1, hself, hother, hp2r, hc2rO, hc2rC⟩ :=
        addRole_ok_char cn st role st1 hhd
      obtain ⟨ihFresh, ihNd, ihPerm, ihNames, ihSelf, ihOther, ihP2r,
        ihC2rO, ihC2rC⟩ := addRoles_ok_char cn rest st1 st' h
      have hrnRest : (cn ++ "." ++ role.Id) ∉ roleNamesOf cn rest := by
        intro hmem
        exact ihFresh _ hmem (by rw [hnames1]; exact Finset.mem_insert_self _ _)
      have hfreshRest : ∀ n ∈ roleNamesOf cn rest, n ∉ st.roleNames := by
        intro n hn hmem
        exact ihFresh n hn (by rw [hnames1]; exact Finset.mem_insert_of_mem hmem)
      refine ⟨?_, ?_, ?_, ?_, ?_, ?_, ?_, ?_, ?_⟩
      · intro n hn
        rcases List.mem_cons.mp hn with heq | hmem
        · exact heq ▸ hfresh
        · exact hfreshRest n hmem
      · exact List.nodup_cons.mpr ⟨hrnRest, ihNd⟩
      · intro role' hr'
        rcases List.mem_cons.mp hr' with heq | hmem
        · exact heq ▸ hnd
        · exact ihPerm role' hmem
      · rw [ihNames, hnames1]
        simp only [roleNamesOf, List.map_cons, List.toFinset_cons,
          Finset.insert_union, Finset.union_insert]
      · intro role' hr'
        rcases List.mem_cons.mp hr' with heq | hmem
        · subst heq
          rw [ihOther _ hrnRest, hself]
        · exact ihSelf role' hmem
      · intro r hr
        have hr1 : r ∉ roleNamesOf cn rest := fun hmem =>
          hr (List.mem_cons_of_mem _ hmem)
        have hr2 : r ≠ cn ++ "." ++ role.Id := fun heq =>
          hr (heq ▸ List.mem_cons_self _ _)
        rw [ihOther r hr1, hother r hr2]
      · intro q r
        rw [ihP2r q r, hp2r q r]
        simp only [List.mem_cons, exists_eq_or_imp]
        tauto
      · intro c hc
        rw [ihC2rO c hc, hc2rO c hc]
      · intro x
        rw [ihC2rC x, hc2rC x]
        simp only [List.mem_cons, exists_eq_or_imp]
        tauto

theorem addRoles_wf (cn : String) :
    ∀ (rs : List Role) (st st' : Rbac), Wf st →
      addRoles cn rs st = .ok st' → Wf st'
  | [], st, st', hwf, h => by
    simp only [addRoles, Except.ok.injEq] at h
    exact h ▸ hwf
  | role :: rest, st, st', hwf, h => by
    simp only [addRoles] at h
    cases hhd : addRole cn st role with
    | error e => rw [hhd] at h; exact absurd h (by simp)
    | ok st1 =>
      rw [hhd] at h
      exact addRoles_wf cn rest st1 st' (addRole_wf cn st role st1 hwf hhd) h

theorem addRoles_isOk_of (cn : String) :
    ∀ (rs : List Role) (st : Rbac), Wf st →
      (∀ n ∈ roleNamesOf cn rs, n ∉ st.roleNames) →
      (roleNamesOf cn rs).Nodup →
      (∀ role ∈ rs, role.Permissions.Nodup) →
      (addRoles cn rs st).isOk = true
  | [], st, _, _, _, _ => by simp [addRoles, Except.isOk, Except.toBool]
  | role :: rest, st, hwf, hfresh, hnd, hperm => by
    have hok : (addRole cn st role).isOk = true := by
      rw [addRole_isOk_iff cn st role hwf]
      exact ⟨hfresh _ (List.mem_cons_self _ _),
        hperm role (List.mem_cons_self _ _)⟩
    simp only [addRoles]
    cases hhd : addRole cn st role with
    | error e => rw [hhd] at hok; simp [Except.isOk, Except.toBool] at hok
    | ok st1 =>
      obtain ⟨-, -, hnames1, -, -, -, -, -⟩ :=
        addRole_ok_char cn st role st1 hhd
      have hrnRest : (cn ++ "." ++ role.Id) ∉ roleNamesOf cn rest :=
        (List.nodup_cons.mp hnd).1
      refine addRoles_isOk_of cn rest st1
        (addRole_wf cn st role st1 hwf hhd) ?_
        (List.nodup_cons.mp hnd).2
        (fun role' hr' => hperm role' (List.mem_cons_of_mem _ hr'))
      intro n hn
      rw [hnames1, Finset.mem_insert]
      rintro (heq | hmem)
      · exact hrnRest (heq ▸ hn)
      · exact hfresh n (List.mem_cons_of_mem _ hn) hmem

/-! ### Properties of one chain-loop iteration and of the whole loop -/

theorem flatNames_cons (c : RoleChain) (rest : List RoleChain) :
    flatNames (c :: rest) = roleNamesOf c.name c.roles ++ flatNames rest := by
  simp [flatNames, roleNamesOf]

theorem addChain_ok_char (st : Rbac) (chain : RoleChain) (st' : Rbac)
    (h : addChain st chain = .ok st') :
    (∀ n ∈ roleNamesOf chain.name chain.roles, n ∉ st.roleNames) ∧
    (roleNamesOf chain.name chain.roles).Nodup ∧
    (∀ role ∈ chain.roles, role.Permissions.Nodup) ∧
    st'.roleNames =
      st.roleNames ∪ (roleNamesOf chain.name chain.roles).toFinset ∧
    (∀ role ∈ chain.roles,
      st'.roleToPermissionSet (chain.name ++ "." ++ role.Id) =
        role.Permissions.toFinset) ∧
    (∀ r, r ∉ roleNamesOf chain.name chain.roles →
      st'.roleToPermissionSet r = st.roleToPermissionSet r) ∧
    (∀ q r, r ∈ st'.permissionToRoleSet q ↔
      r ∈ st.permissionToRoleSet q ∨
        ∃ role ∈ chain.roles,
          r = chain.name ++ "." ++ role.Id ∧ q ∈ role.Permissions) ∧
    (∀ c, c ≠ chain.name → st'.chainToRoleIdSet c = st.chainToRoleIdSet c) ∧
    (∀ x, x ∈ st'.chainToRoleIdSet chain.name ↔
      ∃ role ∈ chain.roles, x = role.Id) := by
  obtain ⟨hfresh, hnd, hperm, hnames, hself, hother, hp2r, hc2rO, hc2rC⟩ :=
    addRoles_ok_char chain.name chain.roles _ st' h
  dsimp only at hfresh hnames hself hother hp2r hc2rO hc2rC
  refine ⟨hfresh, hnd, hperm, hnames, hself, hother, hp2r, ?_, ?_⟩
  · intro c hc
    rw [hc2rO c hc, Function.update_noteq hc]
  · intro x
    rw [hc2rC x, Function.update_same]
    simp

theorem addChain_wf (st : Rbac) (chain : RoleChain) (st' : Rbac)
    (hwf : Wf st) (h : addChain st chain = .ok st') : Wf st' := by
  simp only [addChain] at h
  refine addRoles_wf chain.name chain.roles _ st' ?_ h
  exact hwf

theorem addChain_isOk_of (st : Rbac) (chain : RoleChain) (hwf : Wf st)
    (hfresh : ∀ n ∈ roleNamesOf chain.name chain.roles, n ∉ st.roleNames)
    (hnd : (roleNamesOf chain.name chain.roles).Nodup)
    (hperm : ∀ role ∈ chain.roles, role.Permissions.Nodup) :
    (addChain st chain).isOk = true := by
  simp only [addChain]
  refine addRoles_isOk_of chain.name chain.roles _ ?_ ?_ hnd hperm
  · exact hwf
  · exact hfresh

theorem addChains_ok_char :
    ∀ (cs : List RoleChain) (st st' : Rbac), addChains cs st = .ok st' →
      (∀ n ∈ flatNames cs, n ∉ st.roleNames) ∧
      (flatNames cs).Nodup ∧
      (∀ c ∈ cs, ∀ role ∈ c.roles, role.Permissions.Nodup) ∧
      st'.roleNames = st.roleNames ∪ (flatNames cs).toFinset ∧
      (∀ c ∈ cs, ∀ role ∈ c.roles,
        st'.roleToPermissionSet (c.name ++ "." ++ role.Id) =
          role.Permissions.toFinset) ∧
      (∀ r, r ∉ flatNames cs →
        st'.roleToPermissionSet r = st.roleToPermissionSet r) ∧
      (∀ q r, r ∈ st'.permissionToRoleSet q ↔
        r ∈ st.permissionToRoleSet q ∨
          ∃ c ∈ cs, ∃ role ∈ c.roles,
            r = c.name ++ "." ++ role.Id ∧ q ∈ role.Permissions) ∧
      (∀ cn, (∀ c ∈ cs, c.name ≠ cn) →
        st'.chainToRoleIdSet cn = st.chainToRoleIdSet cn) ∧
      (∀ cn x, x ∈ st'.chainToRoleIdSet cn →
        x ∈ st.chainToRoleIdSet cn ∨
          ∃ c ∈ cs, c.name = cn ∧ ∃ role ∈ c.roles, x = role.Id) ∧
      ((cs.map RoleChain.name).Nodup →
        ∀ c ∈ cs, ∀ role ∈ c.roles,
          role.Id ∈ st'.chainToRoleIdSet c.name)
  | [], st, st', h => by
    simp only [addChains, Except.ok.injEq] at h
    subst h
    simp [flatNames]
  | c :: rest, st, st', h => by
    simp only [addChains] at h
    cases hhd : addChain st c with
    | error e => rw [hhd] at h; exact absurd h (by simp)
    | ok st1 =>
      rw [hhd] at h
      obtain ⟨hfresh, hnd, hperm, hnames1, hself, hother, hp2r, hc2rO,
        hc2rC⟩ := addChain_ok_char st c st1 hhd
      obtain ⟨ihFresh, ihNd, ihPerm, ihNames, ihSelf, ihOther, ihP2r,
        ihC2rU, ihC2rP, ihC2rN⟩ := addChains_ok_char rest st1 st' h
      have hmemHead : ∀ n ∈ roleNamesOf c.name c.roles,
          n ∈ st1.roleNames := by
        intro n hn
        rw [hnames1, Finset.mem_union]
        exact Or.inr (List.mem_toFinset.mpr hn)
      have hdisj : ∀ n ∈ roleNamesOf c.name c.roles, n ∉ flatNames rest := by
        intro n hn hmem
        exact ihFresh n hmem (hmemHead n hn)
      refine ⟨?_, ?_, ?_, ?_, ?_, ?_, ?_, ?_, ?_, ?_⟩
      · intro n hn
        rw [flatNames_cons, List.mem_append] at hn
        rcases hn with hn | hn
        · exact hfresh n hn
        · intro hmem
          exact ihFresh n hn (by
            rw [hnames1, Finset.mem_union]
            exact Or.inl hmem)
      · rw [flatNames_cons]
        exact hnd.append ihNd (List.disjoint_left.mpr hdisj)
      · intro c' hc'
        rcases List.mem_cons.mp hc' with heq | hmem
        · exact heq ▸ hperm
        · exact ihPerm c' hmem
      · rw [ihNames, hnames1, flatNames_cons, List.toFinset_append,
          Finset.union_assoc]
      · intro c' hc' role hrole
        rcases List.mem_cons.mp hc' with heq | hmem
        · subst heq
          rw [ihOther _ (hdisj _ (List.mem_map_of_mem _ hrole)),
            hself role hrole]
        · exact ihSelf c' hmem role hrole
      · intro r hr
        rw [flatNames_cons] at hr
        rw [ihOther r (fun hmem => hr (List.mem_append_right _ hmem)),
          hother r (fun hmem => hr (List.mem_append_left _ hmem))]
      · intro q r
        rw [ihP2r q r, hp2r q r, or_assoc]
        simp only [List.mem_cons, exists_eq_or_imp]
      · intro cn hcn
        rw [ihC2rU cn (fun c' hc' => hcn c' (List.mem_cons_of_mem _ hc')),
          hc2rO cn (Ne.symm (hcn c (List.mem_cons_self _ _)))]
      · intro cn x hx
        rcases ihC2rP cn x hx with hx1 | ⟨c', hc', hcn, role, hrole, hid⟩
        · by_cases hceq : cn = c.name
          · subst hceq
            rcases (hc2rC x).mp hx1 with ⟨role, hrole, hid⟩
            exact Or.inr ⟨c, List.mem_cons_self _ _, rfl, role, hrole, hid⟩
          · rw [hc2rO cn hceq] at hx1
            exact Or.inl hx1
        · exact Or.inr ⟨c', List.mem_cons_of_mem _ hc', hcn, role, hrole, hid⟩
      · intro hndNames c' hc' role hrole
        rw [List.map_cons, List.nodup_cons] at hndNames
        rcases List.mem_cons.mp hc' with heq | hmem
        · subst heq
          have hin : role.Id ∈ st1.chainToRoleIdSet c'.name :=
            (hc2rC role.Id).mpr ⟨role, hrole, rfl⟩
          rw [ihC2rU c'.name (fun c'' hc'' heq =>
            hndNames.1 (heq ▸ List.mem_map_of_mem RoleChain.name hc''))]
          exact hin
        · exact ihC2rN hndNames.2 c' hmem role hrole

theorem addChains_wf :
    ∀ (cs : List RoleChain) (st st' : Rbac), Wf st →
      addChains cs st = .ok st' → Wf st'
  | [], st, st', hwf, h => by
    simp only [addChains, Except.ok.injEq] at h
    exact h ▸ hwf
  | c :: rest, st, st', hwf, h => by
    simp only [addChains] at h
    cases hhd : addChain st c with
    | error e => rw [hhd] at h; exact absurd h (by simp)
    | ok st1 =>
      rw [hhd] at h
      exact addChains_wf rest st1 st' (addChain_wf st c st1 hwf hhd) h

theorem addChains_isOk_of :
    ∀ (cs : List RoleChain) (st : Rbac), Wf st →
      (∀ n ∈ flatNames cs, n ∉ st.roleNames) →
      (flatNames cs).Nodup →
      (∀ c ∈ cs, ∀ role ∈ c.roles, role.Permissions.Nodup) →
      (addChains cs st).isOk = true
  | [], st, _, _, _, _ => by simp [addChains, Except.isOk, Except.toBool]
  | c :: rest, st, hwf, hfresh, hnd, hperm => by
    rw [flatNames_cons] at hfresh hnd
    rw [List.nodup_append] at hnd
    have hok : (addChain st c).isOk = true :=
      addChain_isOk_of st c hwf
        (fun n hn => hfresh n (List.mem_append_left _ hn)) hnd.1
        (hperm c (List.mem_cons_self _ _))
    simp only [addChains]
    cases hhd : addChain st c with
    | error e => rw [hhd] at hok; simp [Except.isOk, Except.toBool] at hok
    | ok st1 =>
      obtain ⟨-, -, -, hnames1, -, -, -, -, -⟩ := addChain_ok_char st c st1 hhd
      refine addChains_isOk_of rest st1
        (addChain_wf st c st1 hwf hhd) ?_ hnd.2.1
        (fun c' hc' => hperm c' (List.mem_cons_of_mem _ hc'))
      intro n hn
      rw [hnames1, Finset.mem_union]
      rintro (hmem | hmem)
      · exact hfresh n (List.mem_append_right _ hn) hmem
      · exact hnd.2.2 (List.mem_toFinset.mp hmem) hn

/-! ### Corollaries about NewRbac -/

theorem newRbac_isOk_iff (chains : List RoleChain) :
    (NewRbac chains).isOk = true ↔
      (chains ≠ [] ∧ (flatNames chains).Nodup ∧
        ∀ c ∈ chains, ∀ role ∈ c.roles, role.Permissions.Nodup) := by
  rw [NewRbac]
  by_cases he : chains.isEmpty
  · rw [if_pos he]
    simp [Except.isOk, Except.toBool, List.isEmpty_iff.mp he]
  · rw [if_neg he]
    have hne : chains ≠ [] := by simpa [List.isEmpty_iff] using he
    constructor
    · intro hok
      cases hca : addChains chains emptyRbac with
      | error e =>
        rw [hca] at hok
        simp [Except.isOk, Except.toBool] at hok
      | ok st' =>
        obtain ⟨-, hnd, hperm, -, -, -, -, -, -, -⟩ :=
          addChains_ok_char chains emptyRbac st' hca
        exact ⟨hne, hnd, hperm⟩
    · rintro ⟨-, hnd, hperm⟩
      refine addChains_isOk_of chains emptyRbac emptyRbac_wf ?_ hnd hperm
      intro n _ hmem
      simp [emptyRbac] at hmem

theorem newRbac_ok_char (chains : List RoleChain) (rbac : Rbac)
    (h : NewRbac chains = .ok rbac) :
    (flatNames chains).Nodup ∧
    (∀ c ∈ chains, ∀ role ∈ c.roles, role.Permissions.Nodup) ∧
    rbac.roleNames = (flatNames chains).toFinset ∧
    (∀ c ∈ chains, ∀ role ∈ c.roles,
      rbac.roleToPermissionSet (c.name ++ "." ++ role.Id) =
        role.Permissions.toFinset) ∧
    (∀ r, r ∉ flatNames chains → rbac.roleToPermissionSet r = ∅) ∧
    (∀ q r, r ∈ rbac.permissionToRoleSet q ↔
      ∃ c ∈ chains, ∃ role ∈ c.roles,
        r = c.name ++ "." ++ role.Id ∧ q ∈ role.Permissions) ∧
    (∀ cn x, x ∈ rbac.chainToRoleIdSet cn →
      ∃ c ∈ chains, c.name = cn ∧ ∃ role ∈ c.roles, x = role.Id) ∧
    ((chains.map RoleChain.name).Nodup →
      ∀ c ∈ chains, ∀ role ∈ c.roles,
        role.Id ∈ rbac.chainToRoleIdSet c.name) := by
  rw [NewRbac] at h
  by_cases he : chains.isEmpty
  · rw [if_pos he] at h
    exact absurd h (by simp)
  · rw [if_neg he] at h
    obtain ⟨-, hnd, hperm, hnames, hself, hother, hp2r, -, hc2rP, hc2rN⟩ :=
      addChains_ok_char chains emptyRbac rbac h
    refine ⟨hnd, hperm, ?_, hself, ?_, ?_, ?_, hc2rN⟩
    · rw [hnames]
      simp [emptyRbac]
    · intro r hr
      rw [hother r hr]
      simp [emptyRbac]
    · intro q r
      rw [hp2r q r]
      simp [emptyRbac]
    · intro cn x hx
      rcases hc2rP cn x hx with hmem | hgood
      · simp [emptyRbac] at hmem
      · exact hgood

/-! ### Structure of chains built with the fluent builder API -/

/-- The roles a sequence of `Add` calls appends, starting from cumulative
permission list `perms`. -/
def chainRolesFrom (perms : List String) :
    List (String × List String) → List Role
  | [] => []
  | a :: rest =>
    { Id := a.1, Permissions := perms ++ a.2 } ::
      chainRolesFrom (perms ++ a.2) rest

theorem foldl_Add_eq :
    ∀ (adds : List (String × List String)) (c : RoleChain),
      adds.foldl (fun c a => c.Add a.1 a.2) c =
        { name := c.name
          roles := c.roles ++ chainRolesFrom c.permissions adds
          permissions := c.permissions ++ adds.flatMap Prod.snd }
  | [], c => by
    rcases c with ⟨n, rs, ps⟩
    simp [chainRolesFrom]
  | a :: rest, c => by
    rw [List.foldl_cons, foldl_Add_eq rest (c.Add a.1 a.2)]
    simp [RoleChain.Add, chainRolesFrom, List.flatMap_cons, List.append_assoc]

theorem buildChain_eq (name : String) (adds : List (String × List String)) :
    buildChain name adds =
      { name := name
        roles := chainRolesFrom [] adds
        permissions := adds.flatMap Prod.snd } := by
  rw [buildChain, foldl_Add_eq adds (Chain name)]
  simp [Chain]

theorem chainRolesFrom_mem (a : String × List String) :
    ∀ (pre post : List (String × List String)) (perms : List String),
      ({ Id := a.1, Permissions := (perms ++ pre.flatMap Prod.snd) ++ a.2 } :
        Role) ∈ chainRolesFrom perms (pre ++ a :: post)
  | [], post, perms => by
    simp [chainRolesFrom]
  | b :: pre, post, perms => by
    simp only [List.cons_append, chainRolesFrom]
    refine List.mem_cons_of_mem _ ?_
    have := chainRolesFrom_mem a pre post (perms ++ b.2)
    simpa [List.append_assoc] using this

theorem foldl_union_toFinset :
    ∀ (pre : List (String × List String)) (s : Finset String),
      pre.foldl (fun acc b => acc ∪ b.2.toFinset) s =
        s ∪ (pre.flatMap Prod.snd).toFinset
  | [], s => by simp
  | b :: pre, s => by
    rw [List.foldl_cons, foldl_union_toFinset pre (s ∪ b.2.toFinset)]
    simp [Finset.union_assoc]

/-! ### Properties of the authorizer operations -/

theorem Add_rbac : ∀ (roles : List String) (a : Authorizer),
    (a.Add roles).rbac = a.rbac
  | [], _ => rfl
  | _ :: rest, a => by
    simp only [Authorizer.Add]
    exact Add_rbac rest _

theorem Add_errors : ∀ (roles : List String) (a : Authorizer),
    (a.Add roles).errors = a.errors
  | [], _ => rfl
  | _ :: rest, a => by
    simp only [Authorizer.Add]
    exact Add_errors rest _

theorem Add_roles_mem : ∀ (roles : List String) (a : Authorizer) (r : String),
    r ∈ (a.Add roles).roles ↔ r ∈ a.roles ∨ r ∈ roles
  | [], a, r => by simp [Authorizer.Add]
  | x :: rest, a, r => by
    simp only [Authorizer.Add]
    rw [Add_roles_mem rest _ r]
    dsimp only
    rw [Finset.mem_insert]
    simp only [List.mem_cons]
    tauto

theorem flagUnknown_rbac : ∀ (roles : List String) (a : Authorizer),
    (flagUnknown a roles).rbac = a.rbac
  | [], _ => rfl
  | x :: rest, a => by
    simp only [flagUnknown]
    rw [flagUnknown_rbac rest _]
    by_cases h : x ∈ a.rbac.roleNames <;> simp [h]

theorem flagUnknown_roles : ∀ (roles : List String) (a : Authorizer),
    (flagUnknown a roles).roles = a.roles
  | [], _ => rfl
  | x :: rest, a => by
    simp only [flagUnknown]
    rw [flagUnknown_roles rest _]
    by_cases h : x ∈ a.rbac.roleNames <;> simp [h]

theorem flagUnknown_errors_mem :
    ∀ (roles : List String) (a : Authorizer) (m : String),
      m ∈ (flagUnknown a roles).errors ↔
        m ∈ a.errors ∨
          ∃ r ∈ roles, r ∉ a.rbac.roleNames ∧
            m = "role " ++ r ++ " not allowed"
  | [], a, m => by simp [flagUnknown]
  | x :: rest, a, m => by
    simp only [flagUnknown]
    rw [flagUnknown_errors_mem rest _ m]
    by_cases h : x ∈ a.rbac.roleNames
    · rw [if_pos h]
      simp only [List.mem_cons, exists_eq_or_imp]
      tauto
    · rw [if_neg h]
      dsimp only
      rw [Finset.mem_insert]
      simp only [List.mem_cons, exists_eq_or_imp]
      tauto

theorem AddAsyncResult_roles_mem (a : Authorizer) (roles : List String)
    (err : Option String) (r : String) :
    r ∈ (a.AddAsyncResult roles err).roles ↔ r ∈ a.roles ∨ r ∈ roles := by
  cases err with
  | none =>
    simp only [Authorizer.AddAsyncResult]
    rw [Add_roles_mem, flagUnknown_roles]
  | some e =>
    simp only [Authorizer.AddAsyncResult]
    rw [Add_roles_mem, flagUnknown_roles]

theorem AddAsyncResult_none_errors_mem (a : Authorizer) (roles : List String)
    (m : String) :
    m ∈ (a.AddAsyncResult roles none).errors ↔
      m ∈ a.errors ∨
        ∃ r ∈ roles, r ∉ a.rbac.roleNames ∧
          m = "role " ++ r ++ " not allowed" := by
  simp only [Authorizer.AddAsyncResult]
  rw [Add_errors, flagUnknown_errors_mem]

theorem AddAsyncResult_some_errors_mem (a : Authorizer) (roles : List String)
    (e m : String) :
    m ∈ (a.AddAsyncResult roles (some e)).errors ↔
      m = e ∨ m ∈ a.errors ∨
        ∃ r ∈ roles, r ∉ a.rbac.roleNames ∧
          m = "role " ++ r ++ " not allowed" := by
  simp only [Authorizer.AddAsyncResult]
  rw [Add_errors, flagUnknown_errors_mem]
  dsimp only
  rw [Finset.mem_insert]
  tauto

theorem Err_eq_none_iff (a : Authorizer) : a.Err = none ↔ a.errors = ∅ := by
  simp only [Authorizer.Err]
  by_cases h : a.errors = ∅ <;> simp [h]

theorem Err_of_nonempty (a : Authorizer) (h : a.errors ≠ ∅) :
    a.Err = some (String.intercalate "; " (a.errors.sort (· ≤ ·))) := by
  simp [Authorizer.Err, h]

theorem HasPermission_iff (a : Authorizer) (p : String) :
    a.HasPermission p = true ↔
      ∃ role ∈ a.rbac.permissionToRoleSet p, role ∈ a.roles := by
  simp [Authorizer.HasPermission]

theorem HasRole_iff (a : Authorizer) (r : String) :
    a.HasRole r = true ↔ r ∈ a.roles := by
  simp [Authorizer.HasRole]

/-! ### Claim theorems -/

/-- C1: for every chain and every role added to it after roles R1..Rn, the
role's effective permission set — as recorded in the chain and, when
`NewRbac` succeeds on a chain list containing the chain, as registered in
the index under the flattened role name — equals exactly the union of the
role's own declared permissions with the declared permissions of R1..Rn. -/
theorem chain_role_grants_union (name : String)
    (pre : List (String × List String)) (a : String × List String)
    (post : List (String × List String)) (chains : List RoleChain)
    (rbac : Rbac) (hmem : buildChain name (pre ++ a :: post) ∈ chains)
    (hok : NewRbac chains = .ok rbac) :
    ∃ role ∈ (buildChain name (pre ++ a :: post)).roles,
      role.Id = a.1 ∧
      role.Permissions.toFinset =
        a.2.toFinset ∪ pre.foldl (fun s b => s ∪ b.2.toFinset) ∅ ∧
      rbac.roleToPermissionSet (name ++ "." ++ a.1) =
        role.Permissions.toFinset := by
  have hchain := buildChain_eq name (pre ++ a :: post)
  have hrole :
      Role.mk a.1 ((([] : List String) ++ pre.flatMap Prod.snd) ++ a.2) ∈
        (buildChain name (pre ++ a :: post)).roles := by
    rw [hchain]
    exact chainRolesFrom_mem a pre post []
  refine ⟨_, hrole, rfl, ?_, ?_⟩
  · rw [foldl_union_toFinset]
    simp [List.toFinset_append, Finset.union_comm]
  · obtain ⟨-, -, -, hself, -, -, -, -⟩ := newRbac_ok_char chains rbac hok
    have hx := hself _ hmem _ hrole
    rw [hchain] at hx
    exact hx

theorem chain_role_grants_union_witness :
    ((NewRbac [buildChain "use.Account"
        [("Member", ["get"]), ("Admin", ["update", "delete"])]]).map
      (fun rbac => rbac.roleToPermissionSet "use.Account.Admin")).toOption =
      some ({"get", "update", "delete"} : Finset String) := by
  cases hx : NewRbac [buildChain "use.Account"
      [("Member", ["get"]), ("Admin", ["update", "delete"])]] with
  | error e =>
    have hok : (NewRbac [buildChain "use.Account"
        [("Member", ["get"]), ("Admin", ["update", "delete"])]]).isOk =
          true := by rfl
    rw [hx] at hok
    simp [Except.isOk, Except.toBool] at hok
  | ok rbac =>
    obtain ⟨role, hrole, -, hperms, hr2p⟩ :=
      chain_role_grants_union "use.Account" [("Member", ["get"])]
        ("Admin", ["update", "delete"]) [] _ rbac (by decide) hx
    show some (rbac.roleToPermissionSet ("use.Account" ++ "." ++ "Admin")) = _
    rw [hr2p, hperms]
    dsimp only
    simp only [List.foldl_cons, List.foldl_nil]
    refine congrArg some (Finset.ext fun x => ?_)
    simp only [Finset.mem_union, List.mem_toFinset, Finset.mem_insert,
      Finset.not_mem_empty, List.mem_cons, List.not_mem_nil, or_false,
      false_or, Finset.mem_singleton]
    tauto

/-- C2 counterexample: `RoleChain.Add` is not set-based.  With caller input
free of literal duplicate entries (each `Add` call's permission list has no
duplicates), a role whose given permissions overlap the chain's cumulative
permissions makes index construction fail with a duplicate-permission
error. -/
theorem chainAdd_overlap_fails_counterexample :
    (∀ x ∈ [("r1", ["p"]), ("r2", ["p"])], x.2.Nodup) ∧
    NewRbac [buildChain "c" [("r1", ["p"]), ("r2", ["p"])]] =
      .error "duplicate permission p in role c.r2" :=
  ⟨by decide, by rfl⟩

/-- C2 (amended): `RoleChain.Add` is append-based, not set-based: the new
role's effective permission list is the cumulative list followed by the
given list, with no deduplication; whenever a given permission already
occurs in the chain's cumulative list, index construction over any chain
list containing the resulting chain fails with an error. -/
theorem chainAdd_append_semantics (c : RoleChain) (id : String)
    (perms : List String) :
    (c.Add id perms).permissions = c.permissions ++ perms ∧
    (c.Add id perms).roles =
      c.roles ++ [{ Id := id, Permissions := c.permissions ++ perms }] ∧
    (∀ p ∈ perms, p ∈ c.permissions →
      ∀ chains, c.Add id perms ∈ chains →
        ∃ e, NewRbac chains = .error e) := by
  refine ⟨rfl, rfl, ?_⟩
  intro p hp hc chains hmem
  have hnotok : ¬(NewRbac chains).isOk = true := by
    rw [newRbac_isOk_iff]
    rintro ⟨-, -, hperm⟩
    have hrole : ({ Id := id, Permissions := c.permissions ++ perms } :
        Role) ∈ (c.Add id perms).roles := by
      simp [RoleChain.Add]
    have hnd := hperm _ hmem _ hrole
    rw [List.nodup_append] at hnd
    exact hnd.2.2 hc hp
  cases hx : NewRbac chains with
  | ok rbac =>
    rw [hx] at hnotok
    simp [Except.isOk, Except.toBool] at hnotok
  | error e => exact ⟨e, rfl⟩

theorem chainAdd_append_semantics_witness :
    ((buildChain "c" [("r1", ["p"])]).Add "r2" ["p"]).permissions =
        ["p", "p"] ∧
      (NewRbac [(buildChain "c" [("r1", ["p"])]).Add "r2" ["p"]]).isOk =
        false := by
  obtain ⟨h1, -, h3⟩ :=
    chainAdd_append_semantics (buildChain "c" [("r1", ["p"])]) "r2" ["p"]
  obtain ⟨e, he⟩ := h3 "p" (by decide) (by decide)
    [(buildChain "c" [("r1", ["p"])]).Add "r2" ["p"]] (by decide)
  refine ⟨by rw [h1]; decide, ?_⟩
  rw [he]
  rfl

/-- C3: `NewRbac` returns an error if and only if zero chains are supplied,
or two roles flatten to the same name, or a role's (effective) permission
list contains literal duplicate entries; an error means no index value is
returned, and otherwise construction succeeds. -/
theorem newRbac_error_iff (chains : List RoleChain) :
    (∃ e, NewRbac chains = .error e) ↔
      (chains = [] ∨ ¬(flatNames chains).Nodup ∨
        ∃ c ∈ chains, ∃ role ∈ c.roles, ¬role.Permissions.Nodup) := by
  have h1 : (∃ e, NewRbac chains = .error e) ↔
      ¬(NewRbac chains).isOk = true := by
    cases hx : NewRbac chains with
    | ok rbac => simp [Except.isOk, Except.toBool]
    | error e => simp [Except.isOk, Except.toBool]
  rw [h1, newRbac_isOk_iff]
  push_neg
  constructor
  · intro h
    by_cases he : chains = []
    · exact Or.inl he
    · by_cases hnd : (flatNames chains).Nodup
      · exact Or.inr (Or.inr (h he hnd))
      · exact Or.inr (Or.inl hnd)
  · rintro (he | hnd | hex) h1' h2'
    · exact absurd he h1'
    · exact absurd h2' hnd
    · exact hex

/-- C4 counterexample: when the resolver passed to `AddAsync` fails, the
roles it returned are nonetheless still added to the held-roles set (the
claim that no role from that call is added is false): with a resolver
outcome `(["use.Account.Member"], error "boom")`, the error is recorded
and the role is added. -/
theorem addAsync_error_still_adds_counterexample :
    ((NewRbac [buildChain "use.Account" [("Member", ["get"])]]).map
      (fun rb =>
        ((decide ("boom" ∈ ((rb.Authorizer []).AddAsyncResult
            ["use.Account.Member"] (some "boom")).errors)),
          (decide ("use.Account.Member" ∈ ((rb.Authorizer []).AddAsyncResult
            ["use.Account.Member"] (some "boom")).roles))))).toOption =
      some (true, true) := by rfl

/-- C4 (amended): when the resolver passed to `AddAsync` fails, the
failure's message is recorded into the error set, and every role in the
returned list is nonetheless added to the held-roles set (a failing
resolver that returns no roles therefore adds none). -/
theorem addAsync_error_records_and_adds (a : Authorizer)
    (roles : List String) (msg : String) :
    msg ∈ (a.AddAsyncResult roles (some msg)).errors ∧
    ∀ r ∈ roles, r ∈ (a.AddAsyncResult roles (some msg)).roles := by
  constructor
  · rw [AddAsyncResult_some_errors_mem]
    exact Or.inl rfl
  · intro r hr
    rw [AddAsyncResult_roles_mem]
    exact Or.inr hr

theorem addAsync_error_records_and_adds_witness :
    "boom" ∈ ((⟨emptyRbac, ∅, ∅⟩ : Authorizer).AddAsyncResult ["x"]
        (some "boom")).errors ∧
      "x" ∈ ((⟨emptyRbac, ∅, ∅⟩ : Authorizer).AddAsyncResult ["x"]
        (some "boom")).roles := by
  obtain ⟨h1, h2⟩ :=
    addAsync_error_records_and_adds ⟨emptyRbac, ∅, ∅⟩ ["x"] "boom"
  exact ⟨h1, h2 "x" (by decide)⟩

/-- C5: when a resolver passed to `AddAsync` succeeds and returns a role
name unknown to the index's `roleToPermissionSet`, the message
"role " + name + " not allowed" is recorded, yet the role is still added
to the held-roles set: `HasRole` for it returns true while `Err` reports
the role as not allowed. -/
theorem addAsync_unknown_role_flagged_but_added (a : Authorizer)
    (roles : List String) (r : String) (hr : r ∈ roles)
    (hunk : r ∉ a.rbac.roleNames) :
    ("role " ++ r ++ " not allowed") ∈
      (a.AddAsyncResult roles none).errors ∧
    (a.AddAsyncResult roles none).HasRole r = true ∧
    ∃ l : List String,
      (a.AddAsyncResult roles none).Err =
          some (String.intercalate "; " l) ∧
        ("role " ++ r ++ " not allowed") ∈ l := by
  have herr : ("role " ++ r ++ " not allowed") ∈
      (a.AddAsyncResult roles none).errors := by
    rw [AddAsyncResult_none_errors_mem]
    exact Or.inr ⟨r, hr, hunk, rfl⟩
  refine ⟨herr, ?_, ?_⟩
  · rw [HasRole_iff, AddAsyncResult_roles_mem]
    exact Or.inr hr
  · have hne : (a.AddAsyncResult roles none).errors ≠ ∅ := by
      intro hemp
      rw [hemp] at herr
      exact absurd herr (Finset.not_mem_empty _)
    refine ⟨(a.AddAsyncResult roles none).errors.sort (· ≤ ·),
      Err_of_nonempty _ hne, ?_⟩
    rw [Finset.mem_sort]
    exact herr

theorem addAsync_unknown_role_flagged_but_added_witness :
    ("role " ++ "ghost" ++ " not allowed") ∈
        ((⟨emptyRbac, ∅, ∅⟩ : Authorizer).AddAsyncResult
          ["ghost"] none).errors ∧
      ((⟨emptyRbac, ∅, ∅⟩ : Authorizer).AddAsyncResult
        ["ghost"] none).HasRole "ghost" = true ∧
      ((⟨emptyRbac, ∅, ∅⟩ : Authorizer).AddAsyncResult
        ["ghost"] none).Err ≠ none := by
  obtain ⟨h1, h2, l, hl, -⟩ :=
    addAsync_unknown_role_flagged_but_added ⟨emptyRbac, ∅, ∅⟩ ["ghost"]
      "ghost" (by decide) (by decide)
  refine ⟨h1, h2, ?_⟩
  rw [hl]
  exact Option.some_ne_none _

/-- C6: `HasPermission p` is true iff some flattened role name that the
index maps to `p` via `permissionToRoleSet` is held; for a permission
unknown to the index (in particular one granted by no role of the chains
the index was built from) it returns false, never an error. -/
theorem hasPermission_characterization (a : Authorizer) (p : String) :
    (a.HasPermission p = true ↔
      ∃ role ∈ a.rbac.permissionToRoleSet p, role ∈ a.roles) ∧
    (a.rbac.permissionToRoleSet p = ∅ → a.HasPermission p = false) ∧
    (∀ chains, NewRbac chains = .ok a.rbac →
      (∀ c ∈ chains, ∀ role ∈ c.roles, p ∉ role.Permissions) →
      a.HasPermission p = false) := by
  have hfalse : a.rbac.permissionToRoleSet p = ∅ →
      a.HasPermission p = false := by
    intro hemp
    rw [← Bool.not_eq_true, HasPermission_iff]
    rintro ⟨role, hrole, -⟩
    rw [hemp] at hrole
    exact absurd hrole (Finset.not_mem_empty _)
  refine ⟨HasPermission_iff a p, hfalse, ?_⟩
  intro chains hok hnot
  refine hfalse (Finset.eq_empty_of_forall_not_mem fun r hr => ?_)
  obtain ⟨-, -, -, -, -, hp2r, -, -⟩ := newRbac_ok_char chains a.rbac hok
  obtain ⟨c, hc, role, hrole, -, hpmem⟩ := (hp2r p r).mp hr
  exact hnot c hc role hrole hpmem

theorem hasPermission_characterization_witness :
    (⟨emptyRbac, {"r"}, ∅⟩ : Authorizer).HasPermission "perm" = false :=
  (hasPermission_characterization ⟨emptyRbac, {"r"}, ∅⟩ "perm").2.1
    (by decide)

/-- C7 counterexample: for a successful `NewRbac` over two chains sharing
the name "A", `ChainHasRoleId "A" "x"` is false although role id "x" was
present in a chain named "A" at construction (the per-chain reset of
`chainToRoleIdSet` erases the earlier chain's ids). -/
theorem chainHasRoleId_duplicate_name_counterexample :
    ((NewRbac [buildChain "A" [("x", ["p"])],
        buildChain "A" [("y", ["q"])]]).map
      (fun rbac => rbac.ChainHasRoleId "A" "x")).toOption = some false ∧
    (buildChain "A" [("x", ["p"])]).name = "A" ∧
    (∃ role ∈ (buildChain "A" [("x", ["p"])]).roles, role.Id = "x") := by
  exact ⟨by rfl, by rfl, by decide⟩

/-- C7 (amended): for every successful index, `ChainHasRoleId` returns
false for any chain name or role id not present at construction; and
provided the supplied chain names are pairwise distinct, it returns true
for every role id present in its chain.  (With a duplicated chain name the
later chain's reset of that name's id set erases the earlier ids.) -/
theorem chainHasRoleId_characterization (chains : List RoleChain)
    (rbac : Rbac) (hok : NewRbac chains = .ok rbac) :
    (∀ cn x, rbac.ChainHasRoleId cn x = true →
      ∃ c ∈ chains, c.name = cn ∧ ∃ role ∈ c.roles, role.Id = x) ∧
    ((chains.map RoleChain.name).Nodup →
      ∀ c ∈ chains, ∀ role ∈ c.roles,
        rbac.ChainHasRoleId c.name role.Id = true) := by
  obtain ⟨-, -, -, -, -, -, hc2rP, hc2rN⟩ := newRbac_ok_char chains rbac hok
  constructor
  · intro cn x hx
    rw [Rbac.ChainHasRoleId, decide_eq_true_eq] at hx
    obtain ⟨c, hc, hcn, role, hrole, hid⟩ := hc2rP cn x hx
    exact ⟨c, hc, hcn, role, hrole, hid.symm⟩
  · intro hnd c hc role hrole
    rw [Rbac.ChainHasRoleId, decide_eq_true_eq]
    exact hc2rN hnd c hc role hrole

theorem chainHasRoleId_characterization_witness :
    ((NewRbac [buildChain "auth" [("User", ["read"])]]).map
      (fun rbac => rbac.ChainHasRoleId "auth" "User")).toOption =
      some true := by
  cases hx : NewRbac [buildChain "auth" [("User", ["read"])]] with
  | error e =>
    have hok : (NewRbac [buildChain "auth" [("User", ["read"])]]).isOk =
        true := by rfl
    rw [hx] at hok
    simp [Except.isOk, Except.toBool] at hok
  | ok rbac =>
    obtain ⟨-, hpresent⟩ := chainHasRoleId_characterization _ rbac hx
    have := hpresent (by decide) (buildChain "auth" [("User", ["read"])])
      (by decide) (Role.mk "User" ["read"]) (by decide)
    exact congrArg (fun b => some b) this

/-- C8: `Err` returns none iff no error messages were recorded; otherwise
it returns a single combined message joining all recorded messages, each
exactly once (duplicates collapse because errors are keyed by message
text), in an order the code does not specify. -/
theorem err_characterization (a : Authorizer) :
    (a.Err = none ↔ a.errors = ∅) ∧
    (a.errors ≠ ∅ → ∃ l : List String,
      a.Err = some (String.intercalate "; " l) ∧ l.Nodup ∧
        ∀ m, m ∈ l ↔ m ∈ a.errors) := by
  refine ⟨Err_eq_none_iff a, fun hne => ?_⟩
  exact ⟨a.errors.sort (· ≤ ·), Err_of_nonempty a hne,
    Finset.sort_nodup _ _, fun m => Finset.mem_sort _⟩

theorem err_characterization_witness :
    (⟨emptyRbac, ∅, {"boom"}⟩ : Authorizer).Err ≠ none := by
  intro h
  have hemp := (err_characterization ⟨emptyRbac, ∅, {"boom"}⟩).1.mp h
  exact absurd hemp (by decide)

/-- C10: in every index returned successfully by `NewRbac`, the maps
`permissionToRoleSet` and `roleToPermissionSet` are inverse relations:
`p ∈ roleToPermissionSet[r]` iff `r ∈ permissionToRoleSet[p]`. -/
theorem index_maps_inverse (chains : List RoleChain) (rbac : Rbac)
    (hok : NewRbac chains = .ok rbac) (p r : String) :
    p ∈ rbac.roleToPermissionSet r ↔ r ∈ rbac.permissionToRoleSet p := by
  obtain ⟨-, -, -, hself, hother, hp2r, -, -⟩ :=
    newRbac_ok_char chains rbac hok
  rw [hp2r p r]
  constructor
  · intro hp
    by_cases hr : r ∈ flatNames chains
    · obtain ⟨c, hc, role, hrole, heq⟩ :
          ∃ c ∈ chains, ∃ role ∈ c.roles, c.name ++ "." ++ role.Id = r := by
        simpa [flatNames, List.mem_flatMap, List.mem_map] using hr
      refine ⟨c, hc, role, hrole, heq.symm, ?_⟩
      rw [← heq, hself c hc role hrole, List.mem_toFinset] at hp
      exact hp
    · rw [hother r hr] at hp
      exact absurd hp (Finset.not_mem_empty _)
  · rintro ⟨c, hc, role, hrole, heq, hpmem⟩
    rw [heq, hself c hc role hrole, List.mem_toFinset]
    exact hpmem

theorem index_maps_inverse_witness :
    ((NewRbac [buildChain "auth" [("User", ["read"])]]).map
      (fun rbac =>
        (decide ("read" ∈ rbac.roleToPermissionSet "auth.User"),
          decide ("auth.User" ∈ rbac.permissionToRoleSet "read")))).toOption =
      some (true, true) := by
  cases hx : NewRbac [buildChain "auth" [("User", ["read"])]] with
  | error e =>
    have hok : (NewRbac [buildChain "auth" [("User", ["read"])]]).isOk =
        true := by rfl
    rw [hx] at hok
    simp [Except.isOk, Except.toBool] at hok
  | ok rbac =>
    have hiff := index_maps_inverse _ rbac hx "read" "auth.User"
    have hmem : "read" ∈ rbac.roleToPermissionSet "auth.User" := by
      obtain ⟨-, -, -, hself, -, -, -, -⟩ := newRbac_ok_char _ rbac hx
      have h1 := hself (buildChain "auth" [("User", ["read"])]) (by decide)
        (Role.mk "User" ["read"]) (by decide)
      have h2 : rbac.roleToPermissionSet ("auth" ++ "." ++ "User") =
          (["read"] : List String).toFinset := h1
      rw [show ("auth.User" : String) = "auth" ++ "." ++ "User" from rfl, h2]
      decide
    have hmem2 := hiff.mp hmem
    show some (decide _, decide _) = some (true, true)
    rw [decide_eq_true hmem, decide_eq_true hmem2]
